import Mathlib

/-!
Verification of the NetlistIO SPICE ingestion pipeline.

Shallow embedding of the pipeline under `src/netlistio/`: the region
scanner (`ingestor/scanner.py`), the chunk parser and logical-line
iterator (`ingestor/parser.py`, `ingestor/spice.py`), the SPICE line
parser (`ingestor/spice.py`, `models/spice.py`), the model registry
(`ingestor/registry.py`) and the linker (`ingestor/linker.py`).
Python `dict`s are modelled as insertion-ordered association lists,
Python exceptions as `Except` values, and the external `networkx`
behaviour (Kahn topological sort, its exception class hierarchy) is
modelled explicitly where the linker depends on it.
-/

namespace NetlistIO

/-! ## Data model (models/generic.py, models/spice.py) -/

/-- A named port on a cell (`Port` in models/generic.py). -/
structure Port where
  name : String
deriving DecidableEq, Repr

/-- The primitive device kinds defined in models/spice.py.  Each Python
class is a value-typed singleton compared by type, so a plain inductive
kind captures their identity semantics (`Primitive.__eq__` compares
`type(self) is type(other)`). -/
inductive PrimKind where
  | resistor
  | capacitor
  | inductor
  | mosfet
  | nmos
  | pmos
  | diode
deriving DecidableEq, Repr

/-- Canonical lowercase model name of each primitive (the `name` ClassVar). -/
def primName : PrimKind → String
  | .resistor => "resistor"
  | .capacitor => "capacitor"
  | .inductor => "inductor"
  | .mosfet => "mosfet"
  | .nmos => "nmos"
  | .pmos => "pmos"
  | .diode => "diode"

/-- Ordered formal ports of each primitive (the `ports` ClassVar). -/
def primPorts : PrimKind → List Port
  | .resistor => [⟨"a"⟩, ⟨"b"⟩]
  | .capacitor => [⟨"a"⟩, ⟨"b"⟩]
  | .inductor => [⟨"a"⟩, ⟨"b"⟩]
  | .mosfet => [⟨"d"⟩, ⟨"g"⟩, ⟨"s"⟩, ⟨"b"⟩]
  | .nmos => [⟨"d"⟩, ⟨"g"⟩, ⟨"s"⟩, ⟨"b"⟩]
  | .pmos => [⟨"d"⟩, ⟨"g"⟩, ⟨"s"⟩, ⟨"b"⟩]
  | .diode => [⟨"a"⟩, ⟨"k"⟩]

/-- A resolved instance definition: either a primitive singleton or a
reference to a macro.  The linker only ever consults the referenced
macro's `name` and `ports` (for dependency edges and net zipping), so a
macro reference carries exactly those. -/
inductive Defn where
  | prim (k : PrimKind)
  | macroRef (name : String) (ports : List Port)
deriving DecidableEq, Repr

/-- Ports of a resolved definition (`instance.definition.ports`). -/
def Defn.ports : Defn → List Port
  | .prim k => primPorts k
  | .macroRef _ ps => ps

/-- `Instance` from models/generic.py.  `nets` is the insertion-ordered
port-to-net dict (net name to optional formal port). -/
structure Inst where
  name : String
  nets : List (String × Option Port) := []
  params : List (String × String) := []
  definition : Option Defn := none
  definition_name : Option String := none
  parent : Option String := none
deriving DecidableEq, Repr

/-- A cell that can appear inside a macro's `children` list.  The chunk
parser (`ChunkParser.parse`) only ever appends instances and atomic
`.model` declarations to `children` (a second `.subckt` declaration
replaces the current macro instead of nesting), so children are one of
these two shapes. -/
inductive ChildCell where
  | instC (i : Inst)
  | modelC (name : String) (base_type : String) (params : List (String × String))
deriving DecidableEq, Repr

/-- A parsed cell (`Cell` subclasses produced by the chunk parser):
a macro (`Subckt`), an instance, or a `.model` declaration (`Model`). -/
inductive PCell where
  | macroC (name : String) (ports : List Port) (children : List ChildCell)
  | instC (i : Inst)
  | modelC (name : String) (base_type : String) (params : List (String × String))
deriving DecidableEq, Repr

/-! ## Python dict / string helpers -/

/-- Lookup in an insertion-ordered association list (Python `dict.get`). -/
def pyLookup {α β : Type} [DecidableEq α] : List (α × β) → α → Option β
  | [], _ => none
  | (k, v) :: rest, a => if k = a then some v else pyLookup rest a

/-- Python `d[k] = v`: update in place when the key exists (keeping its
position), otherwise append at the end. -/
def pyDictInsert {α β : Type} [DecidableEq α] : List (α × β) → α → β → List (α × β)
  | [], k, v => [(k, v)]
  | (k0, v0) :: rest, k, v =>
      if k0 = k then (k0, v) :: rest else (k0, v0) :: pyDictInsert rest k v

theorem pyLookup_pyDictInsert_self {α β : Type} [DecidableEq α]
    (d : List (α × β)) (k : α) (v : β) : pyLookup (pyDictInsert d k v) k = some v := by
  induction d with
  | nil => simp [pyDictInsert, pyLookup]
  | cons hd tl ih =>
      obtain ⟨k0, v0⟩ := hd
      by_cases h : k0 = k <;> simp [pyDictInsert, pyLookup, h, ih]

/-- Python `str.strip()`: drop whitespace from both ends. -/
def pyStrip (s : String) : String :=
  String.mk (((s.data.dropWhile Char.isWhitespace).reverse.dropWhile Char.isWhitespace).reverse)

/-- First character of a (nonempty) string; space for the empty string. -/
def headCharD (s : String) : Char :=
  match s.data with
  | c :: _ => c
  | [] => ' '

def strIsEmpty (s : String) : Bool := s.data.isEmpty

/-- Python `"=" in token`. -/
def strContainsEq (t : String) : Bool := t.data.any (fun c => decide (c = '='))

/-- Python `str.lower()` (ASCII suffices for the modelled inputs). -/
def pyToLower (s : String) : String := String.mk (s.data.map Char.toLower)

def wsTokensAux : List Char → List Char → List String
  | [], acc => if acc.isEmpty then [] else [String.mk acc.reverse]
  | c :: rest, acc =>
      if c.isWhitespace then
        if acc.isEmpty then wsTokensAux rest []
        else String.mk acc.reverse :: wsTokensAux rest []
      else wsTokensAux rest (c :: acc)

/-- Python `str.split()` with no argument: the maximal non-whitespace
runs, in order. -/
def pySplitWs (s : String) : List String := wsTokensAux s.data []

/-- Python `" ".join(parts)`. -/
def joinSpace : List String → String
  | [] => ""
  | [s] => s
  | s :: rest => s ++ " " ++ joinSpace rest

/-- Drop whitespace that immediately follows an `=` (the flag records
whether the previous kept character was `=` or dropped whitespace in
its run). -/
def dropWsAfterEq : List Char → Bool → List Char
  | [], _ => []
  | c :: rest, afterEq =>
      if afterEq ∧ c.isWhitespace then dropWsAfterEq rest true
      else if c = '=' then '=' :: dropWsAfterEq rest true
      else c :: dropWsAfterEq rest false

/-- `re.sub(r"\s*=\s*", "=", line)` from spice.py (`_RE_EQUALS_NORM`):
delete whitespace adjacent to every `=`.  Implemented as two passes —
drop whitespace after every `=`, then (on the reversal) whitespace
before every `=`. -/
def eqNormChars (cs : List Char) : List Char :=
  (dropWsAfterEq (dropWsAfterEq cs false).reverse false).reverse

def eqNormStr (s : String) : String := String.mk (eqNormChars s.toList)

/-- Case-insensitive ASCII prefix test on character lists, used to model
the `re.IGNORECASE` anchored patterns. -/
def startsWithCI : List Char → List Char → Bool
  | _, [] => true
  | [], _ :: _ => false
  | c :: cs, p :: ps => c.toLower = p.toLower && startsWithCI cs ps

/-! ## SPICE prefix table (models/spice.py)

`_SpicePrimitiveMixin.prefix_registry` is one shared dict; classes
register themselves in definition order Resistor(R), Capacitor(C),
Inductor(L), MOSFET(M), NMOS(M), PMOS(M), Diode(D), Subckt(X), so for
the key "M" the last registration wins and the registry maps "M" to the
PMOS class.  `get_definition_from_prefix` compares the uppercased prefix
character against this final table. -/

inductive DefCls where
  | primC (k : PrimKind)
  | subcktC
deriving DecidableEq, Repr

def defnFromPrefixChar (c : Char) : Option DefCls :=
  if c.toUpper = 'R' then some (.primC .resistor)
  else if c.toUpper = 'C' then some (.primC .capacitor)
  else if c.toUpper = 'L' then some (.primC .inductor)
  else if c.toUpper = 'M' then some (.primC .pmos)
  else if c.toUpper = 'D' then some (.primC .diode)
  else if c.toUpper = 'X' then some .subcktC
  else none

/-- `_SpicePassiveMixin.registry` holds Resistor, Capacitor, Inductor. -/
def isPassiveCls : DefCls → Bool
  | .primC .resistor => true
  | .primC .capacitor => true
  | .primC .inductor => true
  | _ => false

/-- `_is_value`: token nonempty and first char a digit or one of `. - +`. -/
def isValueTok (t : String) : Bool :=
  match t.toList with
  | [] => false
  | c :: _ => c.isDigit || c = '.' || c = '-' || c = '+'

/-- Python `token.split("=", 1)`. -/
def splitEq1 (t : String) : String × String :=
  (String.mk (t.toList.takeWhile (fun c => c ≠ '=')),
   String.mk ((t.toList.dropWhile (fun c => c ≠ '=')).drop 1))

/-- `SpiceLineParser._extract_params`: walk the token list backwards,
removing every `key=value` token and assigning it into `params`.
Walking backwards with in-place pops leaves the non-`=` tokens in
source order and performs the dict assignments in reverse source
order (so the first occurrence of a duplicate key wins). -/
def extractParams (tokens : List String) (params : List (String × String)) :
    List String × List (String × String) :=
  let remaining := tokens.filter (fun t => ¬ strContainsEq t)
  let withEq := tokens.filter (fun t => strContainsEq t)
  (remaining,
   withEq.reverse.foldl (fun d t => let kv := splitEq1 t; pyDictInsert d kv.1 kv.2) params)

/-- The body of `parse_instance` once the prefix lookup has selected a
definition class (spice.py lines 187-228). -/
def parseInstanceCore (name_token : String) (toks : List String) (defCls : DefCls) : Inst :=
          let passive := isPassiveCls defCls
          let defName0 : Option String :=
            if passive then
              match defCls with
              | .primC k => some (primName k)
              | .subcktC => none
            else none
          let step1 : List String × List (String × String) :=
            if passive then
              match toks.getLast? with
              | some lastTok =>
                  if isValueTok lastTok then (toks.dropLast, [("value", lastTok)])
                  else (toks, [])
              | none => (toks, [])
            else (toks, [])
          let step2 := extractParams step1.1 step1.2
          let walk := step2.1.reverse.foldl
            (fun (st : Option String × List String) t =>
              match st.1 with
              | none => (some t, st.2)
              | some _ => (st.1, st.2 ++ [t]))
            (defName0, [])
          let nets := walk.2.reverse
          let netsDict := nets.foldl (fun d n => pyDictInsert d n (none : Option Port)) []
          match defCls with
          | .subcktC =>
              { name := name_token, nets := netsDict, params := step2.2,
                definition_name := walk.1 }
          | .primC k =>
              { name := name_token, nets := netsDict, params := step2.2,
                definition := some (.prim k) }

/-- `SpiceLineParser.parse_instance` (spice.py lines 175-228): fewer
than two tokens or an unknown prefix yields no instance. -/
def parse_instance (line : String) : Option Inst :=
  match pySplitWs (eqNormStr line) with
  | [] => none
  | [_] => none
  | name_token :: toks =>
      match defnFromPrefixChar (headCharD name_token) with
      | none => none
      | some defCls => some (parseInstanceCore name_token toks defCls)

/-! ## SPICE declaration and directive matchers (spice.py regexes)

Each `re` pattern in spice.py is `re.IGNORECASE | re.MULTILINE` and
anchored with `^\s*`; the matched subject is always a single line, so
the patterns reduce to case-insensitive anchored prefix matches. -/

/-- `RE_SUBCKT`: `^\s*(\.subckt)\s+([^\s]+)`; returns (delimiter as
written, name). -/
def matchesSubcktLine (line : String) : Option (String × String) :=
  let cs := line.toList.dropWhile Char.isWhitespace
  if startsWithCI cs ".subckt".toList then
    let rest := cs.drop 7
    match rest.head? with
    | some c =>
        if c.isWhitespace then
          let r1 := rest.dropWhile Char.isWhitespace
          let nm := r1.takeWhile (fun d => ¬ d.isWhitespace)
          if nm.isEmpty then none
          else some (String.mk (cs.take 7), String.mk nm)
        else none
    | none => none
  else none

/-- `RE_ENDS`: `^\s*\.ends`, used with `.match` (anchored). -/
def matchesEndsLine (line : String) : Bool :=
  startsWithCI (line.toList.dropWhile Char.isWhitespace) ".ends".toList

/-- `RE_MODEL`: `^\s*(\.model)\s+(\S+)\s+(\S+)\s*(.*)$`; returns
(name, base type, params text). -/
def matchesModelLine (line : String) : Option (String × String × String) :=
  let cs := line.toList.dropWhile Char.isWhitespace
  if startsWithCI cs ".model".toList then
    let rest := cs.drop 6
    match rest.head? with
    | some c =>
        if c.isWhitespace then
          let r1 := rest.dropWhile Char.isWhitespace
          let nm := r1.takeWhile (fun d => ¬ d.isWhitespace)
          if nm.isEmpty then none
          else
            let r2 := r1.drop nm.length
            match r2.head? with
            | some c2 =>
                if c2.isWhitespace then
                  let r3 := r2.dropWhile Char.isWhitespace
                  let ty := r3.takeWhile (fun d => ¬ d.isWhitespace)
                  if ty.isEmpty then none
                  else
                    let r4 := (r3.drop ty.length).dropWhile Char.isWhitespace
                    some (String.mk nm, String.mk ty, String.mk r4)
                else none
            | none => none
        else none
    | none => none
  else none

/-- `.model` parameter text parsing inside `parse_declaration`:
normalise `=`, split, `key=value` tokens are split, bare tokens map to
`"true"`. -/
def modelDeclOf (line : String) : Option PCell :=
  match matchesModelLine line with
  | some (nm, ty, ps) =>
      let params := (pySplitWs (eqNormStr ps)).foldl
        (fun d t =>
          if strContainsEq t then
            let kv := splitEq1 t
            pyDictInsert d kv.1 kv.2
          else pyDictInsert d t "true") []
      some (.modelC nm ty params)
  | none => none

/-- `SpiceLineParser.parse_declaration` (spice.py lines 252-291). -/
def parse_declaration (line : String) : Option PCell :=
  if (matchesSubcktLine line).isSome then
    match pySplitWs line with
    | _ :: name :: ports =>
        some (.macroC name ((ports.filter (fun p => ¬ strContainsEq p)).map Port.mk) [])
    | _ => modelDeclOf line
  else modelDeclOf line

/-! ## Include and library directives -/

/-- A parsed `.include` / `.lib` / Cadence bracket directive
(models/parsing.py `IncludeDirective` / `LibraryDirective`). -/
inductive Directive where
  | includeD (filepath : String) (source_file : String) (strict : Bool)
  | libD (filepath : String) (source_file : String) (strict : Bool) (sect : Option String)
deriving DecidableEq, Repr

def isQuoteOrApos (c : Char) : Bool := c = Char.ofNat 34 || c = Char.ofNat 39

/-- Python `s.strip("\x22\x27")`. -/
def stripQuotes (s : String) : String :=
  String.mk (((s.toList.dropWhile isQuoteOrApos).reverse.dropWhile isQuoteOrApos).reverse)

/-- The filename alternative `(?:["\x27]([^"\x27]+)["\x27]|([^\s]+))`:
a quoted body (either quote kind on either side) or a bare token; on a
failed quoted match the regex falls back to the bare-token branch. -/
def parseFilenameTok (cs : List Char) : Option (String × List Char) :=
  match cs.head? with
  | none => none
  | some c =>
      let quoted : Option (String × List Char) :=
        if isQuoteOrApos c then
          let body := (cs.drop 1).takeWhile (fun d => ¬ isQuoteOrApos d)
          if body.isEmpty then none
          else
            match ((cs.drop 1).drop body.length).head? with
            | some d =>
                if isQuoteOrApos d then
                  some (String.mk body, (cs.drop 1).drop (body.length + 1))
                else none
            | none => none
        else none
      match quoted with
      | some r => some r
      | none =>
          let body := cs.takeWhile (fun d => ¬ d.isWhitespace)
          if body.isEmpty then none else some (String.mk body, cs.drop body.length)

/-- `RE_INCLUDE`: `^\s*\.include\s+<filename>` (search, not end-anchored). -/
def matchesIncludeLine (line : String) : Option String :=
  let cs := line.toList.dropWhile Char.isWhitespace
  if startsWithCI cs ".include".toList then
    let rest := cs.drop 8
    match rest.head? with
    | some c =>
        if c.isWhitespace then
          (parseFilenameTok (rest.dropWhile Char.isWhitespace)).map (fun r => r.1)
        else none
    | none => none
  else none

/-- `RE_LIB_DIRECTIVE`: `^\s*\.lib\s+<filename>(?:\s+(\S+))?\s*$`
(end-anchored; at most one section token may follow the filename). -/
def matchesLibLine (line : String) : Option (String × Option String) :=
  let cs := line.toList.dropWhile Char.isWhitespace
  if startsWithCI cs ".lib".toList then
    let rest := cs.drop 4
    match rest.head? with
    | some c =>
        if c.isWhitespace then
          match parseFilenameTok (rest.dropWhile Char.isWhitespace) with
          | none => none
          | some (fn, after) =>
              if after.all Char.isWhitespace then some (fn, none)
              else
                match after.head? with
                | some c2 =>
                    if c2.isWhitespace then
                      let a1 := after.dropWhile Char.isWhitespace
                      let sect := a1.takeWhile (fun d => ¬ d.isWhitespace)
                      let a2 := a1.drop sect.length
                      if sect.isEmpty then none
                      else if a2.all Char.isWhitespace then
                        some (fn, some (String.mk sect))
                      else none
                    else none
                | none => some (fn, none)
        else none
    | none => none
  else none

/-- `RE_CADENCE_STRICT_INCLUDE` / `RE_CADENCE_LENIENT_INCLUDE`:
`^\s*\[<marker>\s*([^"\]]+)\s*\]`; the filepath is afterwards stripped
of surrounding quote characters by `_get_filepath_from_match`. -/
def matchesCadence (marker : Char) (line : String) : Option String :=
  let cs := line.toList.dropWhile Char.isWhitespace
  match cs with
  | c1 :: c2 :: rest =>
      if c1 = '[' ∧ c2 = marker then
        let r1 := rest.dropWhile Char.isWhitespace
        let body := r1.takeWhile (fun d => ¬ (d = ']' ∨ d = Char.ofNat 34))
        if body.isEmpty then none
        else
          match (r1.drop body.length).head? with
          | some c3 =>
              if c3 = ']' then
                some (stripQuotes (String.mk ((body.reverse.dropWhile Char.isWhitespace).reverse)))
              else none
          | none => none
      else none
  | _ => none

/-- `SpiceLineParser.parse_include` (spice.py lines 293-315):
dispatch order include, library, Cadence strict, Cadence lenient. -/
def parse_include (filepath : String) (line : String) : Option Directive :=
  match matchesIncludeLine line with
  | some fn => some (.includeD fn filepath true)
  | none =>
      match matchesLibLine line with
      | some (fn, sect) => some (.libD fn filepath true sect)
      | none =>
          match matchesCadence '!' line with
          | some fn => some (.includeD fn filepath true)
          | none =>
              match matchesCadence '?' line with
              | some fn => some (.includeD fn filepath false)
              | none => none

/-- The three format-specific entry points of a `LineParser`. -/
structure LineParserM where
  parse_declaration : String → Option PCell
  parse_include : String → Option Directive
  parse_instance : String → Option Inst

/-- `SpiceLineParser` wired up for a given file path. -/
def spiceLineParser (filepath : String) : LineParserM :=
  ⟨parse_declaration, parse_include filepath, parse_instance⟩

/-! ## Logical-line iterator (SpiceChunkParser, spice.py lines 97-169)

Physical lines are what `mm.readline()` yields inside the region; each
is decoded and `.strip()`ped by `_read_physical_line`.  We model the
region's physical lines as a list of strings and apply the strip when
reading. -/

/-- `_is_comment`: empty, or starts with `*` or `$`. -/
def isCommentS (l : String) : Bool :=
  match l.data with
  | [] => true
  | c :: _ => decide (c = '*') || decide (c = '$')

/-- `_is_continuation`: starts with `+`. -/
def isContS (l : String) : Bool :=
  match l.data with
  | [] => false
  | c :: _ => decide (c = '+')

/-- `_accumulate_logical_line`: join with spaces, drop if empty or a
comment. -/
def accumulateLL (acc : List String) : Option String :=
  match acc with
  | [] => none
  | _ =>
      let j := joinSpace acc
      if isCommentS j then none else some j

/-- The main `while` loop of `SpiceChunkParser.__iter__` over the
remaining stripped physical lines, given the currently accumulated
continuation group.  Produces the raw yield stream (including the
`none` yields the Python generator emits for empty groups). -/
def foldLL : List String → List String → List (Option String)
  | [], acc => [accumulateLL acc]
  | l :: rest, acc =>
      if isCommentS l then foldLL rest acc
      else if isContS l then foldLL rest (acc ++ [pyStrip (String.mk (l.data.drop 1))])
      else accumulateLL acc :: foldLL rest [l]

/-- `ChunkParser.parse` skips falsy lines (`if not line: continue`), so
the effective logical-line stream drops `none` and empty yields. -/
def filterLL (xs : List (Option String)) : List String :=
  (xs.filterMap id).filter (fun l => ¬ strIsEmpty l)

/-- Logical lines of a region whose `start_byte` is not 0 (no title
handling). -/
def plainLogicalLines (physLines : List String) : List String :=
  filterLL (foldLL (physLines.map pyStrip) [])

/-- Logical lines of a whole-file region (`start_byte == 0`): the title
branch of `SpiceChunkParser.__iter__` reads one physical line first.
If it is non-empty, not a comment and does not start with `.` it is
consumed as the title; if it starts with `.` it seeds the accumulator;
if it is a comment the accumulator stays empty; if it is empty (or the
region has no lines) the iterator returns immediately. -/
def logicalLines0 (physLines : List String) : List String :=
  match physLines.map pyStrip with
  | [] => []
  | l :: rest =>
      if strIsEmpty l then []
      else if ¬ (isCommentS l || decide (headCharD l = '.')) then filterLL (foldLL rest [])
      else if ¬ isCommentS l then filterLL (foldLL rest [l])
      else filterLL (foldLL rest [])

/-! ## Chunk parser dispatch (ChunkParser.parse, parser.py lines 140-183) -/

/-- The state of the `ChunkParser.parse` loop: top-level cells, the
macro currently being filled (if any), and collected directives. -/
structure ChunkSt where
  cells : List PCell
  macroOpt : Option (String × List Port × List ChildCell)
  includes : List Directive
deriving Repr

/-- One logical line of `ChunkParser.parse`: dispatch order is
declaration, then include, then instance; the first match wins. -/
def chunkStep (lp : LineParserM) (st : ChunkSt) (line : String) : ChunkSt :=
  if strIsEmpty line then st
  else
    match lp.parse_declaration line with
    | some (.macroC n ps ch) => { st with macroOpt := some (n, ps, ch) }
    | some (.modelC n b prms) =>
        match st.macroOpt with
        | some (mn, mps, mch) =>
            { st with macroOpt := some (mn, mps, mch ++ [.modelC n b prms]) }
        | none => { st with cells := st.cells ++ [.modelC n b prms] }
    | some (.instC i) =>
        match st.macroOpt with
        | some (mn, mps, mch) => { st with macroOpt := some (mn, mps, mch ++ [.instC i]) }
        | none => { st with cells := st.cells ++ [.instC i] }
    | none =>
        match lp.parse_include line with
        | some d => { st with includes := st.includes ++ [d] }
        | none =>
            match lp.parse_instance line with
            | some i =>
                match st.macroOpt with
                | some (mn, mps, mch) =>
                    { st with macroOpt := some (mn, mps, mch ++ [.instC i]) }
                | none => { st with cells := st.cells ++ [.instC i] }
            | none => st

/-- The result of parsing one region (`ParseResult`, without the unused
error list: `SpiceLineParser` never appends to `self.errors`). -/
structure ChunkResult where
  cells : List PCell
  includes : List Directive
deriving Repr

/-- The return step of `ChunkParser.parse`: if a macro was declared,
the result's cells are exactly `[macro]`. -/
def chunkFinish (st : ChunkSt) : ChunkResult :=
  match st.macroOpt with
  | some (n, ps, ch) => ⟨[.macroC n ps ch], st.includes⟩
  | none => ⟨st.cells, st.includes⟩

/-- `ChunkParser.parse`: fold the dispatch over the logical lines and
finish. -/
def chunkParse (lp : LineParserM) (logLines : List String) : ChunkResult :=
  chunkFinish (logLines.foldl (chunkStep lp) ⟨[], none, []⟩)

/-! ## Region scanner (scanner.py)

The scanner walks the file line by line via `mm.readline()`, tracking
the byte offset of each line's start (`cur`) and end (`nxt`).  We model
the file as the list of raw lines `readline` yields (each including its
terminating newline byte, except possibly the last) and a line's byte
length as its character count. -/

inductive RegionType where
  | GLOBAL
  | MACRO
deriving DecidableEq, Repr

/-- `ParseRegion` (models/parsing.py).  `endB = -1` is the whole-file
sentinel, hence the `Int` type. -/
structure Region where
  filepath : String
  startB : Nat
  endB : Int
  rtype : RegionType
  ctxDelim : Option String := none
  ctxName : Option String := none
deriving DecidableEq, Repr

/-- The scanner's format strategy (`ScanStrategy`). -/
structure ScanStrat where
  matchesMacroStart : String → Option (String × String)
  matchesMacroEnd : String → Bool

/-- `SpiceScanStrategy`. -/
def spiceStrat : ScanStrat :=
  ⟨matchesSubcktLine, matchesEndsLine⟩

/-- `ScanContext` (without the strategy and regions queue, threaded
separately). -/
structure SCtx where
  regions : List Region
  currentStart : Nat
  depth : Nat
  inMacro : Bool
  ctxName : Option String
  ctxDelim : Option String
deriving Repr

def initSCtx : SCtx := ⟨[], 0, 0, false, none, none⟩

/-- `Scanner._handle_global_line`. -/
def handleGlobalLine (strat : ScanStrat) (fp : String) (ctx : SCtx) (line : String)
    (cur : Nat) : SCtx :=
  match strat.matchesMacroStart line with
  | some (delim, nm) =>
      let regions :=
        if cur > ctx.currentStart then
          ctx.regions ++ [⟨fp, ctx.currentStart, (cur : Int), .GLOBAL, none, none⟩]
        else ctx.regions
      ⟨regions, cur, 1, true, some nm, some delim⟩
  | none => ctx

/-- `Scanner._handle_macro_line`. -/
def handleMacroLine (strat : ScanStrat) (fp : String) (ctx : SCtx) (line : String)
    (nxt : Nat) : SCtx :=
  if (strat.matchesMacroStart line).isSome then
    { ctx with depth := ctx.depth + 1 }
  else if strat.matchesMacroEnd line then
    let d := ctx.depth - 1
    if d = 0 then
      { ctx with
        regions := ctx.regions ++
          [⟨fp, ctx.currentStart, (nxt : Int), .MACRO, ctx.ctxDelim, ctx.ctxName⟩],
        currentStart := nxt, depth := d, inMacro := false }
    else { ctx with depth := d }
  else ctx

/-- One line of `Scanner._scan_regions`. -/
def scanLine (strat : ScanStrat) (fp : String) (ctx : SCtx) (line : String)
    (cur nxt : Nat) : SCtx :=
  if ctx.inMacro then handleMacroLine strat fp ctx line nxt
  else handleGlobalLine strat fp ctx line cur

/-- The `while` loop of `_scan_regions`, returning the final context and
byte position. -/
def scanGo (strat : ScanStrat) (fp : String) : SCtx → Nat → List String → SCtx × Nat
  | ctx, pos, [] => (ctx, pos)
  | ctx, pos, l :: rest =>
      scanGo strat fp (scanLine strat fp ctx l pos (pos + l.length)) (pos + l.length) rest

/-- `Scanner._finalize_region`. -/
def finalizeScan (fp : String) (ctx : SCtx) (pos : Nat) : List Region :=
  if pos > ctx.currentStart then
    ctx.regions ++ [⟨fp, ctx.currentStart, (pos : Int), .GLOBAL, none, none⟩]
  else ctx.regions

/-- `Scanner.scan` over the raw lines of a (non-empty) file. -/
def scanRegions (strat : ScanStrat) (fp : String) (lines : List String) : List Region :=
  finalizeScan fp (scanGo strat fp initSCtx 0 lines).1 (scanGo strat fp initSCtx 0 lines).2

/-- Total byte length of the file. -/
def totalLen (lines : List String) : Nat := (lines.map String.length).sum

/-! ## Model registry (registry.py) -/

/-- A `Macro` object as stored in the registry and the macro table:
name, ordered ports, raw children. -/
structure MacroObj where
  name : String
  ports : List Port
  children : List ChildCell
deriving DecidableEq, Repr

/-- The resolved-definition view of a stored macro: the linker only
reads its `name` and `ports`. -/
def Defn.ofMacro (m : MacroObj) : Defn := .macroRef m.name m.ports

/-- `ModelRegistry`.  The model resolver is a pure function from
(lowercased) name and library content blob to an optional definition,
matching the `ModelResolver` protocol. -/
structure ModelRegistry where
  static_primitives : List (String × PrimKind) := []
  static_macros : List (String × MacroObj) := []
  library_content : List (String × String) := []
  model_resolver : Option (String → String → Option Defn) := none
  resolved_cache : List (String × Option Defn) := []

/-- `ModelRegistry.resolve_model` (registry.py lines 42-74): cache,
then static primitives, then static macros, then the resolver over
registered library contents; every computed result (hit or miss) is
written to the cache. -/
def resolve_model (reg : ModelRegistry) (model_name : String) :
    Option Defn × ModelRegistry :=
  let key := pyToLower model_name
  match pyLookup reg.resolved_cache key with
  | some cached => (cached, reg)
  | none =>
      match pyLookup reg.static_primitives key with
      | some p =>
          (some (.prim p),
           { reg with resolved_cache := pyDictInsert reg.resolved_cache key (some (.prim p)) })
      | none =>
          match pyLookup reg.static_macros key with
          | some m =>
              (some (Defn.ofMacro m),
               { reg with
                 resolved_cache := pyDictInsert reg.resolved_cache key (some (Defn.ofMacro m)) })
          | none =>
              let hit : Option Defn :=
                match reg.model_resolver with
                | some resolver => reg.library_content.findSome? (fun c => resolver key c.2)
                | none => none
              (hit, { reg with resolved_cache := pyDictInsert reg.resolved_cache key hit })

/-! ## networkx exceptions and Kahn topological sort

`linker._topological_sort` calls `nx.topological_sort` inside
`try: ... except nx.NetworkXError:`.  On a cyclic graph networkx raises
`NetworkXUnfeasible`, whose class hierarchy is
`NetworkXUnfeasible < NetworkXAlgorithmError < NetworkXException`,
while `NetworkXError < NetworkXException` is a sibling branch.  We model
the hierarchy so the handler's applicability is decided exactly as
Python's `except` clause decides it. -/

inductive NxClass where
  | networkXException
  | networkXError
  | networkXAlgorithmError
  | networkXUnfeasible
deriving DecidableEq, Repr

/-- The superclass chain of each networkx exception class (networkx
`exception.py`). -/
def nxAncestors : NxClass → List NxClass
  | .networkXException => [.networkXException]
  | .networkXError => [.networkXError, .networkXException]
  | .networkXAlgorithmError => [.networkXAlgorithmError, .networkXException]
  | .networkXUnfeasible =>
      [.networkXUnfeasible, .networkXAlgorithmError, .networkXException]

/-- `isinstance(raised, handler)`: the handler class is among the
raised class's ancestors. -/
def nxIsInstanceOf (raised handler : NxClass) : Bool :=
  decide (handler ∈ nxAncestors raised)

/-- Python exceptions that can escape the modelled code. -/
inductive PyExc where
  | nxExc (c : NxClass)
  | valueError
  | attributeError
  | keyError
deriving DecidableEq, Repr

/-- Has an incoming edge from a remaining node (so not yet ready in
Kahn's algorithm; a processed predecessor has already decremented the
networkx in-degree counter). -/
def hasIncoming (edges : List (String × String)) (nodes : List String) (n : String) : Bool :=
  edges.any (fun e => decide (e.2 = n) && decide (e.1 ∈ nodes))

def pickReady (nodes : List String) (edges : List (String × String)) : Option String :=
  nodes.find? (fun n => ! hasIncoming edges nodes n)

/-- Kahn's algorithm as `nx.topological_sort` runs it: repeatedly emit
a remaining node with no incoming edge from remaining nodes; fail
(networkx: raise `NetworkXUnfeasible`) when none is ready.  The choice
among simultaneously ready nodes is a tie-break networkx makes by
insertion order of its in-degree map; every property proved below is
independent of that tie-break. -/
def kahnAux : Nat → List String → List (String × String) → Option (List String)
  | 0, nodes, _ => if nodes.isEmpty then some [] else none
  | fuel + 1, nodes, edges =>
      if nodes.isEmpty then some []
      else
        match pickReady nodes edges with
        | none => none
        | some n => (kahnAux fuel (nodes.erase n) edges).map (fun order => n :: order)

def kahnSort (nodes : List String) (edges : List (String × String)) :
    Option (List String) :=
  kahnAux nodes.length nodes edges

/-! ## Linker (linker.py) -/

inductive LinkErrorType where
  | UNDEFINED_MODEL
  | UNNAMED_CELL
  | CIRCULAR_DEPENDENCY
  | DUPLICATE_DEFINITION
deriving DecidableEq, Repr

structure LinkError where
  error_type : LinkErrorType
  message : String
  affected_cells : List String
deriving DecidableEq, Repr

/-- A macro after linking: children are the (shared, mutated) instance
objects. -/
structure RMacro where
  name : String
  ports : List Port
  children : List Inst
deriving DecidableEq, Repr

/-- A parsed cell after the resolution pass. -/
inductive RCell where
  | macroR (m : RMacro)
  | instR (i : Inst)
  | modelR (name : String) (base_type : String) (params : List (String × String))
deriving DecidableEq, Repr

/-- `linker._build_macro_table`: first definition wins, repeats produce
DUPLICATE_DEFINITION.  (The UNNAMED_CELL branch guards `cell.name is
None`, which the SPICE parser never produces; macro names are strings
here.) -/
def buildMacroTable (cells : List PCell) :
    List (String × MacroObj) × List LinkError :=
  cells.foldl
    (fun acc c =>
      match c with
      | .macroC n ps ch =>
          if (pyLookup acc.1 n).isSome then
            (acc.1,
             acc.2 ++ [⟨.DUPLICATE_DEFINITION, "Duplicate subcircuit definition: " ++ n, [n]⟩])
          else (acc.1 ++ [(n, ⟨n, ps, ch⟩)], acc.2)
      | _ => acc)
    ([], [])

/-- `link` lines 33-34: register parsed macros under lowercased keys. -/
def registerMacros (reg : ModelRegistry) (table : List (String × MacroObj)) :
    ModelRegistry :=
  table.foldl
    (fun r km => { r with static_macros := pyDictInsert r.static_macros (pyToLower km.1) km.2 })
    reg

/-- `linker._resolve_instance_model`. -/
def resolveInstanceModel (reg : ModelRegistry) (i : Inst) :
    Inst × List LinkError × ModelRegistry :=
  match i.definition_name with
  | none => (i, [], reg)
  | some dn =>
      let r := resolve_model reg dn
      match r.1 with
      | some m => ({ i with definition := some m }, [], r.2)
      | none =>
          (i,
           [⟨.UNDEFINED_MODEL,
             "Undefined model: " ++ dn ++ " (referenced by instance " ++ i.name ++ ")",
             [i.name]⟩],
           r.2)

/-- `_resolve_instances` over one macro's children.  A non-Instance
child (a `.model` inside a `.subckt`) hits `child.definition_name` in
`_resolve_instance_model` and raises AttributeError. -/
def resolveChildrenL (reg : ModelRegistry) :
    List ChildCell → Except PyExc (List Inst × List LinkError × ModelRegistry)
  | [] => .ok ([], [], reg)
  | .instC i :: rest =>
      let r := resolveInstanceModel reg i
      match resolveChildrenL r.2.2 rest with
      | .ok (is, es, reg2) => .ok (r.1 :: is, r.2.1 ++ es, reg2)
      | .error e => .error e
  | .modelC _ _ _ :: _ => .error .attributeError

/-- `linker._resolve_instances` over all parsed cells, keeping the
updated cells (instances inside macros are the same objects as in the
flat instance list) and the flat instance list in traversal order. -/
def resolveCellList (reg : ModelRegistry) :
    List PCell → Except PyExc (List RCell × List Inst × List LinkError × ModelRegistry)
  | [] => .ok ([], [], [], reg)
  | .instC i :: rest =>
      let r := resolveInstanceModel reg i
      match resolveCellList r.2.2 rest with
      | .ok (rc, is, es, rg) => .ok (.instR r.1 :: rc, r.1 :: is, r.2.1 ++ es, rg)
      | .error e => .error e
  | .macroC n ps ch :: rest =>
      match resolveChildrenL reg ch with
      | .error e => .error e
      | .ok (chR, es1, reg1) =>
          match resolveCellList reg1 rest with
          | .ok (rc, is, es, rg) => .ok (.macroR ⟨n, ps, chR⟩ :: rc, chR ++ is, es1 ++ es, rg)
          | .error e => .error e
  | .modelC n b prms :: rest =>
      match resolveCellList reg rest with
      | .ok (rc, is, es, rg) => .ok (.modelR n b prms :: rc, is, es, rg)
      | .error e => .error e

/-- `link` lines 37-39: `instance.nets = dict(zip(instance.nets,
instance.definition.ports))` for every instance with a resolved
definition.  `zip` truncates to the shorter sequence. -/
def attachNetsWith (i : Inst) (d : Defn) : Inst :=
  { i with
    nets := List.zipWith (fun n p => (n, some p)) (i.nets.map (fun kv => kv.1)) d.ports }

def attachNets (i : Inst) : Inst :=
  match i.definition with
  | some d => attachNetsWith i d
  | none => i

def attachRCell : RCell → RCell
  | .macroR m => .macroR { m with children := m.children.map attachNets }
  | .instR i => .instR (attachNets i)
  | .modelR n b p => .modelR n b p

/-- The macro table as seen by `_topological_sort`: the same first-wins
keyed table, whose values now carry resolved children. -/
def buildResolvedTable (rcells : List RCell) : List (String × RMacro) :=
  rcells.foldl
    (fun t c =>
      match c with
      | .macroR m => if (pyLookup t m.name).isSome then t else t ++ [(m.name, m)]
      | _ => t)
    []

/-- `linker._build_dependency_graph` edges contributed by one macro:
an edge `(A, B)` for every child instance of `A` whose resolved
definition is a macro named `B`. -/
def depEdgesOfMacro (key : String) (m : RMacro) : List (String × String) :=
  m.children.filterMap
    (fun c =>
      match c.definition with
      | some (.macroRef nb _) => some (key, nb)
      | _ => none)

def buildEdges (table : List (String × RMacro)) : List (String × String) :=
  table.foldl (fun es km => es ++ depEdgesOfMacro km.1 km.2) []

/-- `nx.DiGraph` node set: `add_node` for every macro, then `add_edge`
implicitly adds endpoints, all deduplicated in insertion order. -/
def addNode (ns : List String) (n : String) : List String :=
  if n ∈ ns then ns else ns ++ [n]

def buildNodes (table : List (String × RMacro)) (edges : List (String × String)) :
    List String :=
  edges.foldl (fun ns e => addNode (addNode ns e.1) e.2)
    (table.foldl (fun ns km => addNode ns km.1) [])

/-- The error object the dead `except nx.NetworkXError` handler would
construct from `nx.find_cycle`.  The handler is unreachable (see
`topologicalSortL`), so only its error kind matters. -/
def cycleErrorObj : LinkError :=
  ⟨.CIRCULAR_DEPENDENCY, "Circular dependency detected", []⟩

/-- `[macro_by_name[name] for name in sorted_names]`: look every
sorted name up in the macro table; a missing name is a Python
KeyError. -/
def lookupAll (table : List (String × RMacro)) : List String → Option (List RMacro)
  | [] => some []
  | n :: rest =>
      match pyLookup table n with
      | none => none
      | some m => (lookupAll table rest).map (fun ms => m :: ms)

/-- `linker._topological_sort`.  On success, look each sorted name up
in the macro table (a missing name is a Python KeyError).  On a cycle,
`nx.topological_sort` raises `NetworkXUnfeasible`; the surrounding
handler catches only `NetworkXError`, which is not an ancestor, so the
exception escapes. -/
def topologicalSortL (table : List (String × RMacro)) :
    Except PyExc (List RMacro × List LinkError) :=
  match kahnSort (buildNodes table (buildEdges table)) (buildEdges table) with
  | some names =>
      match lookupAll table names with
      | some ms => .ok (ms, [])
      | none => .error .keyError
  | none =>
      if nxIsInstanceOf .networkXUnfeasible .networkXError then
        .ok (table.map (fun km => km.2), [cycleErrorObj])
      else .error (.nxExc .networkXUnfeasible)

/-- `linker._collect_primitives`: the unique primitives among resolved
definitions.  (Python materialises a `set`; we fix first-appearance
order, which no claim depends on.) -/
def collectPrimitives (instances : List Inst) : List PrimKind :=
  instances.foldl
    (fun acc i =>
      match i.definition with
      | some (.prim k) => if k ∈ acc then acc else acc ++ [k]
      | _ => acc)
    []

/-- The assembled `Netlist` (models/generic.py `Netlist` as the linker
fills it: primitive and macro sequences plus top-level instances). -/
structure LNetlist where
  name : String
  primitives : List PrimKind
  macros : List RMacro
  topInstances : List Inst
deriving DecidableEq, Repr

/-- `LinkResult`. -/
structure LinkOut where
  netlist : LNetlist
  errors : List LinkError
  top_instances : List Inst
deriving DecidableEq, Repr

/-- `linker.link` (linker.py lines 21-47). -/
def link (netName : String) (cells : List PCell) (reg0 : ModelRegistry) :
    Except PyExc LinkOut :=
  match resolveCellList (registerMacros reg0 (buildMacroTable cells).1) cells with
  | .error e => .error e
  | .ok (rcells, instances0, resErrs, _) =>
      match topologicalSortL (buildResolvedTable (rcells.map attachRCell)) with
      | .error e => .error e
      | .ok (sortedMacros, cycleErrs) =>
          .ok ⟨⟨netName, collectPrimitives (instances0.map attachNets), sortedMacros,
                (instances0.map attachNets).filter (fun i => i.parent.isNone)⟩,
               (buildMacroTable cells).2 ++ resErrs ++ cycleErrs,
               (instances0.map attachNets).filter (fun i => i.parent.isNone)⟩

/-! ## Pipeline assembly (reader.py `SpiceReader.read` without the
include/library phases, which are inert when the root file contains no
include or library directives): memory-map the root file, scan it into
regions, chunk-parse every region, aggregate the cells, link. -/

/-- Split a file's text into the raw lines `mm.readline()` yields: each
line keeps its terminating newline; a final fragment without a newline
is yielded as-is. -/
def splitLinesAux : List Char → List Char → List String
  | [], acc => if acc.isEmpty then [] else [String.mk acc.reverse]
  | c :: rest, acc =>
      if c = '\n' then String.mk (acc.reverse ++ ['\n']) :: splitLinesAux rest []
      else splitLinesAux rest (c :: acc)

def splitLinesKeepEnds (s : String) : List String := splitLinesAux s.toList []

/-- Each raw line paired with its starting byte offset. -/
def linesWithPos (lines : List String) : List (String × Nat) :=
  (lines.foldl
    (fun (acc : List (String × Nat) × Nat) l =>
      (acc.1 ++ [(l, acc.2)], acc.2 + l.length))
    ([], 0)).1

/-- The physical lines a chunk parser reads for a region: it seeks to
`start_byte` (always a line start for scanner-produced regions) and
reads lines while `tell() < end_byte` (or to EOF when `end_byte` is the
-1 sentinel). -/
def regionLines (r : Region) (lines : List String) : List String :=
  ((linesWithPos lines).filter
    (fun lp => decide (r.startB ≤ lp.2) && (decide (r.endB = -1) || decide ((lp.2 : Int) < r.endB)))).map
    (fun lp => lp.1)

/-- Parse one region: whole-file regions (`start_byte == 0`) get the
title handling, others do not. -/
def chunkParseRegion (lp : LineParserM) (r : Region) (lines : List String) : ChunkResult :=
  let phys := regionLines r lines
  let logical := if r.startB = 0 then logicalLines0 phys else plainLogicalLines phys
  chunkParse lp logical

/-- `common.open_mmap` + `Scanner.scan`: CPython's
`mmap.mmap(fileno, 0)` raises `ValueError` ("cannot mmap an empty
file") when the file has size zero; otherwise the scanner walks the
lines. -/
def scanFile (strat : ScanStrat) (fp : String) (content : String) :
    Except PyExc (List Region) :=
  if content.length = 0 then .error .valueError
  else .ok (scanRegions strat fp (splitLinesKeepEnds content))

/-- The registry `SpiceReader.read` passes to `link`: a fresh
`ModelRegistry()` whose `SpiceModelResolver` is only ever consulted
over `library_content`, which stays empty when the root file has no
library directives; the resolver therefore never contributes and is
omitted. -/
def freshRegistry : ModelRegistry := {}

/-- The ingestion pipeline on a root file's text.  Worker results are
aggregated; `imap_unordered` returns them in nondeterministic order,
fixed here to region order (all concrete inputs below parse within a
deterministic region set). -/
def runPipeline (content : String) : Except PyExc LinkOut :=
  match scanFile spiceStrat "root.sp" content with
  | .error e => .error e
  | .ok regions =>
      let lines := splitLinesKeepEnds content
      let results := regions.map (fun r => chunkParseRegion (spiceLineParser "root.sp") r lines)
      let cells := (results.map (fun r => r.cells)).flatten
      link "root.sp" cells freshRegistry

/-! ## Claim theorems -/

/-- The two-resistor divider input of claim C1. -/
def c1Input : String := "*title\nR1 in out 1k\nR2 out gnd 1k\n.end"

/-- C1: on `*title\nR1 in out 1k\nR2 out gnd 1k\n.end` the pipeline
produces a netlist with no macros and exactly the two top-level
instances `R1`, `R2`, both resolved to the resistor primitive; after
linking `R1.nets = {in: Port(a), out: Port(b)}` in that key order and
`R1.params = {value: "1k"}`. -/
theorem c1_two_resistor_divider :
    (runPipeline c1Input).map (fun out => out.netlist.macros) = .ok []
    ∧ (runPipeline c1Input).map (fun out => out.netlist.topInstances.map Inst.name)
        = .ok ["R1", "R2"]
    ∧ (runPipeline c1Input).map (fun out =>
          out.netlist.topInstances.all
            (fun i => decide (i.definition = some (.prim .resistor))))
        = .ok true
    ∧ (runPipeline c1Input).map (fun out => out.netlist.topInstances.head?.map Inst.nets)
        = .ok (some [("in", some ⟨"a"⟩), ("out", some ⟨"b"⟩)])
    ∧ (runPipeline c1Input).map (fun out => out.netlist.topInstances.head?.map Inst.params)
        = .ok (some [("value", "1k")]) := by
  refine ⟨rfl, rfl, rfl, rfl, rfl⟩

/-- The cyclic input of spec scenario 6 (claim C3). -/
def c3Input : String :=
  ".subckt A a b\nX1 a b B\n.ends\n.subckt B a b\nX2 a b A\n.ends"

/-- C3 (code bug): on the cyclic input, `nx.topological_sort` raises
`NetworkXUnfeasible`; since `NetworkXError` is not among its ancestor
classes the `except nx.NetworkXError` handler in
`linker._topological_sort` does not match, so `link` does not return a
CIRCULAR_DEPENDENCY result — the exception escapes the pipeline. -/
theorem c3_cycle_raises_unfeasible :
    runPipeline c3Input = .error (.nxExc .networkXUnfeasible)
    ∧ nxIsInstanceOf .networkXUnfeasible .networkXError = false := by
  refine ⟨rfl, rfl⟩

/-- C8 (code bug): `common.open_mmap` calls `mmap.mmap(f.fileno(), 0)`,
which raises ValueError on a zero-byte file, so the pipeline raises
instead of producing an empty netlist with no errors. -/
theorem c8_empty_file_raises :
    runPipeline "" = .error .valueError := rfl

/-- C4 counterexample: the instance line `M1 d g s b nmod` is parsed
with the PMOS singleton as its resolved definition — not the mosfet
primitive (the prefix registry maps "M" to the last-registered class,
PMOS) — and the PMOS and MOSFET primitives are distinct values with
distinct canonical names. -/
theorem c4_cex_m_line_gets_pmos :
    (parse_instance "M1 d g s b nmod").map Inst.definition
        = some (some (.prim .pmos))
    ∧ (Defn.prim .pmos ≠ Defn.prim .mosfet)
    ∧ primName .pmos = "pmos" ∧ primName .mosfet = "mosfet" := by
  refine ⟨rfl, by decide, rfl, rfl⟩

/-- C5 counterexample: in `*t\nR1 a 1k\n.end` the instance `R1` links
to the resistor primitive (port arity 2) but declares a single net;
after linking its nets map has 1 entry, not 2, and the error list is
empty — no parity error is reported. -/
theorem c5_cex_short_nets_no_error :
    (runPipeline "*t\nR1 a 1k\n.end").map
        (fun out =>
          (out.netlist.topInstances.head?.map
            (fun i => (i.definition, i.nets.length)),
           out.errors))
      = .ok (some (some (.prim .resistor), 1), [])
    ∧ (primPorts .resistor).length = 2 := by
  refine ⟨rfl, rfl⟩

/-- C7 counterexample: with a comment as the first physical line of a
whole-file region, the following non-comment line `hello world` is NOT
treated as the title — it stays in the logical-line stream, contrary to
the claim that title handling applies to the first non-comment line
even when comments precede it. -/
theorem c7_cex_comment_first_keeps_next_line :
    logicalLines0 ["* c", "hello world", "R1 a b 1"]
        = ["hello world", "R1 a b 1"]
    ∧ "hello world" ∈ logicalLines0 ["* c", "hello world", "R1 a b 1"] := by
  refine ⟨rfl, by decide⟩

/-- C9: `ModelRegistry.resolve_model` is idempotent: a second call with
the same name on the registry state left by the first call returns the
same result (hit or miss) — every resolution path writes its result
into `_resolved_cache`, which the second call reads first. -/
theorem c9_resolve_model_idempotent (reg : ModelRegistry) (n : String) :
    (resolve_model (resolve_model reg n).2 n).1 = (resolve_model reg n).1 := by
  unfold resolve_model
  cases h1 : pyLookup reg.resolved_cache (pyToLower n) with
  | some cached => simp [h1]
  | none =>
      cases h2 : pyLookup reg.static_primitives (pyToLower n) with
      | some p => simp [h1, h2, pyLookup_pyDictInsert_self]
      | none =>
          cases h3 : pyLookup reg.static_macros (pyToLower n) with
          | some m => simp [h1, h2, h3, pyLookup_pyDictInsert_self]
          | none => simp [h1, h2, h3, pyLookup_pyDictInsert_self]

theorem filterLL_none_cons (ys : List (Option String)) :
    filterLL (none :: ys) = filterLL ys := by
  simp [filterLL]

theorem foldLL_cons_plain (x : String) (r : List String)
    (hc : isCommentS x = false) (hk : isContS x = false) :
    foldLL (x :: r) [] = none :: foldLL r [x] := by
  simp [foldLL, hc, hk, accumulateLL]

/-- C7 (amended): for a whole-file region the title handling inspects
only the FIRST physical line.  A non-comment, non-directive first line
is dropped as the title; a first line starting with `.` is retained; a
comment first line disables title handling entirely (the next
non-comment line is parsed normally); a blank first line ends the
iteration with no logical lines. -/
theorem c7_amended_title_only_first_line (l : String) (rest : List String) :
    logicalLines0 (l :: rest) =
      (if strIsEmpty (pyStrip l) then []
       else if isCommentS (pyStrip l) then plainLogicalLines rest
       else if headCharD (pyStrip l) = '.' then plainLogicalLines (l :: rest)
       else plainLogicalLines rest) := by
  have hplain : plainLogicalLines (l :: rest)
      = filterLL (foldLL (pyStrip l :: rest.map pyStrip) []) := by
    simp [plainLogicalLines]
  cases hdata : (pyStrip l).data with
  | nil =>
      simp [logicalLines0, strIsEmpty, hdata]
  | cons c0 cs0 =>
      have hne : strIsEmpty (pyStrip l) = false := by simp [strIsEmpty, hdata]
      have hhead : headCharD (pyStrip l) = c0 := by simp [headCharD, hdata]
      have hcomm : isCommentS (pyStrip l) = (decide (c0 = '*') || decide (c0 = '$')) := by
        simp [isCommentS, hdata]
      have hcont : isContS (pyStrip l) = decide (c0 = '+') := by
        simp [isContS, hdata]
      by_cases hc : (c0 = '*' ∨ c0 = '$')
      · have hcomm2 : isCommentS (pyStrip l) = true := by
          rcases hc with hc | hc <;> simp [hcomm, hc]
        simp [logicalLines0, hne, hcomm2, plainLogicalLines]
      · push_neg at hc
        have hcomm2 : isCommentS (pyStrip l) = false := by
          simp [hcomm, hc.1, hc.2]
        by_cases hdot : c0 = '.'
        · have hcont2 : isContS (pyStrip l) = false := by
            simp [hcont, hdot]
          rw [hplain, logicalLines0]
          simp only [List.map_cons]
          rw [foldLL_cons_plain _ _ hcomm2 hcont2, filterLL_none_cons]
          simp [hne, hcomm2, hhead, hdot]
        · rw [logicalLines0]
          simp only [List.map_cons]
          simp [hne, hcomm2, hhead, hdot, plainLogicalLines]

theorem zipWith_pair_fst {α β : Type} (l1 : List α) (l2 : List β) :
    (List.zipWith (fun n p => (n, some p)) l1 l2).map Prod.fst = l1.take l2.length := by
  induction l1 generalizing l2 with
  | nil => simp
  | cons a r ih =>
      cases l2 with
      | nil => simp
      | cons b r2 => simp [ih]

theorem zipWith_pair_snd {α β : Type} (l1 : List α) (l2 : List β) :
    (List.zipWith (fun n p => (n, some p)) l1 l2).map Prod.snd
      = (l2.take l1.length).map Option.some := by
  induction l1 generalizing l2 with
  | nil => simp
  | cons a r ih =>
      cases l2 with
      | nil => simp
      | cons b r2 => simp [ih]

/-- C5 (amended): for every instance with a resolved definition the
linker sets `nets = dict(zip(declared nets, definition.ports))`: the
keys are the declared net names and the values the formal ports in
positional order, truncated to the SHORTER of the declared-net count
and the port arity; no parity error exists in the linker, so a
mismatch is silent.  Every top-level instance of a successfully linked
netlist is such an `attachNets` image. -/
theorem c5_amended_nets_zip_truncates :
    (∀ (i : Inst) (d : Defn), i.definition = some d →
        (attachNets i).definition = some d
        ∧ (attachNets i).nets.length = min i.nets.length d.ports.length
        ∧ (attachNets i).nets.map Prod.fst = (i.nets.map Prod.fst).take d.ports.length
        ∧ (attachNets i).nets.map Prod.snd = (d.ports.take i.nets.length).map Option.some)
    ∧ (∀ (nm : String) (cells : List PCell) (reg : ModelRegistry) (out : LinkOut),
        link nm cells reg = .ok out →
        ∀ i ∈ out.netlist.topInstances, ∃ i0, i = attachNets i0) := by
  have hatt : ∀ (i : Inst) (d : Defn), i.definition = some d →
      attachNets i = attachNetsWith i d := by
    intro i d h
    unfold attachNets
    rw [h]
  constructor
  · intro i d h
    rw [hatt i d h]
    refine ⟨?_, ?_, ?_, ?_⟩
    · simpa [attachNetsWith] using h
    · simp [attachNetsWith, List.length_zipWith]
    · simpa [attachNetsWith] using zipWith_pair_fst (i.nets.map Prod.fst) d.ports
    · simpa [attachNetsWith] using zipWith_pair_snd (i.nets.map Prod.fst) d.ports
  · intro nm cells reg out h i hi
    unfold link at h
    split at h
    · exact absurd h (by simp)
    · split at h
      · exact absurd h (by simp)
      · injection h with h
        subst h
        simp only at hi
        obtain ⟨i0, hmem, rfl⟩ := List.mem_map.mp (List.mem_of_mem_filter hi)
        exact ⟨i0, rfl⟩

/-- Inversion of the prefix table. -/
theorem defnFromPrefixChar_cases (c : Char) (d : DefCls)
    (h : defnFromPrefixChar c = some d) :
    (c.toUpper = 'R' ∧ d = .primC .resistor)
    ∨ (c.toUpper = 'C' ∧ d = .primC .capacitor)
    ∨ (c.toUpper = 'L' ∧ d = .primC .inductor)
    ∨ (c.toUpper = 'M' ∧ d = .primC .pmos)
    ∨ (c.toUpper = 'D' ∧ d = .primC .diode)
    ∨ (c.toUpper = 'X' ∧ d = .subcktC) := by
  unfold defnFromPrefixChar at h
  split_ifs at h with h1 h2 h3 h4 h5 h6 <;> simp_all

theorem defnFromPrefixChar_none (c : Char)
    (h : c.toUpper ∉ (['R', 'C', 'L', 'M', 'D', 'X'] : List Char)) :
    defnFromPrefixChar c = none := by
  unfold defnFromPrefixChar
  simp only [List.mem_cons, List.not_mem_nil, or_false] at h
  push_neg at h
  obtain ⟨h1, h2, h3, h4, h5, h6⟩ := h
  simp [h1, h2, h3, h4, h5, h6]

/-- C4 (amended): a line parses as an instance exactly when the
uppercased leading character of its first token is in the prefix table
R, C, L, M, D, X; the resolved definition is the resistor, capacitor,
inductor, PMOS (the last-registered class for prefix M — not the base
mosfet), or diode primitive respectively, while X leaves the
definition unresolved.  Any other leading character means the line is
not parsed as an instance. -/
theorem c4_amended_prefix_table :
    (∀ (line : String) (i : Inst), parse_instance line = some i →
        ∃ tok rest, pySplitWs (eqNormStr line) = tok :: rest
          ∧ (((headCharD tok).toUpper = 'R' ∧ i.definition = some (.prim .resistor))
             ∨ ((headCharD tok).toUpper = 'C' ∧ i.definition = some (.prim .capacitor))
             ∨ ((headCharD tok).toUpper = 'L' ∧ i.definition = some (.prim .inductor))
             ∨ ((headCharD tok).toUpper = 'M' ∧ i.definition = some (.prim .pmos))
             ∨ ((headCharD tok).toUpper = 'D' ∧ i.definition = some (.prim .diode))
             ∨ ((headCharD tok).toUpper = 'X' ∧ i.definition = none)))
    ∧ (∀ (line : String) (tok : String) (rest : List String),
        pySplitWs (eqNormStr line) = tok :: rest →
        (headCharD tok).toUpper ∉ (['R', 'C', 'L', 'M', 'D', 'X'] : List Char) →
        parse_instance line = none) := by
  have hcore_prim : ∀ nt toks k,
      (parseInstanceCore nt toks (.primC k)).definition = some (.prim k) := fun _ _ _ => rfl
  have hcore_sub : ∀ nt toks,
      (parseInstanceCore nt toks .subcktC).definition = none := fun _ _ => rfl
  constructor
  · intro line i h
    unfold parse_instance at h
    rcases htoks : pySplitWs (eqNormStr line) with _ | ⟨name_token, toks⟩
    · rw [htoks] at h
      exact absurd h (by simp)
    · rcases toks with _ | ⟨t2, ts⟩
      · rw [htoks] at h
        exact absurd h (by simp)
      · rw [htoks] at h
        have h2 : (match defnFromPrefixChar (headCharD name_token) with
            | none => (none : Option Inst)
            | some defCls => some (parseInstanceCore name_token (t2 :: ts) defCls)) = some i := h
        refine ⟨name_token, t2 :: ts, rfl, ?_⟩
        cases hd : defnFromPrefixChar (headCharD name_token) with
        | none =>
            rw [hd] at h2
            exact absurd h2 (by simp)
        | some defCls =>
            rw [hd] at h2
            simp only [Option.some.injEq] at h2
            subst h2
            rcases defnFromPrefixChar_cases _ _ hd with
              ⟨hu, rfl⟩ | ⟨hu, rfl⟩ | ⟨hu, rfl⟩ | ⟨hu, rfl⟩ | ⟨hu, rfl⟩ | ⟨hu, rfl⟩ <;>
              simp [hu, hcore_prim, hcore_sub]
  · intro line tok rest heq hmem
    unfold parse_instance
    rw [heq]
    cases rest with
    | nil => rfl
    | cons t2 ts =>
        show (match defnFromPrefixChar (headCharD tok) with
          | none => (none : Option Inst)
          | some defCls => some (parseInstanceCore tok (t2 :: ts) defCls)) = none
        rw [defnFromPrefixChar_none _ hmem]

/-! ## C10: one macro per region -/

/-- A nonempty logical line that `parse_declaration` turns into a
macro (subcircuit header). -/
def isMacroDeclL (lp : LineParserM) (l : String) : Bool :=
  !strIsEmpty l &&
    (match lp.parse_declaration l with
     | some (.macroC _ _ _) => true
     | _ => false)

def macroDeclNameL (lp : LineParserM) (l : String) : Option String :=
  match lp.parse_declaration l with
  | some (.macroC n _ _) => some n
  | _ => none

/-- The name of the most recently declared macro among the logical
lines, if any. -/
def lastMacroName (lp : LineParserM) (lines : List String) : Option String :=
  (lines.reverse.find? (isMacroDeclL lp)).bind (macroDeclNameL lp)

def mNameOf : Option (String × List Port × List ChildCell) → Option String
  | some x => some x.1
  | none => none

theorem isMacroDeclL_name (lp : LineParserM) (l : String)
    (h : isMacroDeclL lp l = true) : ∃ n, macroDeclNameL lp l = some n := by
  unfold isMacroDeclL at h
  unfold macroDeclNameL
  cases hdecl : lp.parse_declaration l with
  | none => rw [hdecl] at h; simp at h
  | some c =>
      cases c with
      | macroC n ps ch => exact ⟨n, rfl⟩
      | instC i => rw [hdecl] at h; simp at h
      | modelC a b p => rw [hdecl] at h; simp at h

theorem chunkStep_mNameOf (lp : LineParserM) (st : ChunkSt) (l : String) :
    mNameOf (chunkStep lp st l).macroOpt
      = if isMacroDeclL lp l then macroDeclNameL lp l else mNameOf st.macroOpt := by
  by_cases he : strIsEmpty l
  · simp [chunkStep, isMacroDeclL, he]
  · cases hdecl : lp.parse_declaration l with
    | some c =>
        cases c with
        | macroC n ps ch =>
            simp [chunkStep, isMacroDeclL, macroDeclNameL, he, hdecl, mNameOf]
        | instC i =>
            cases hm : st.macroOpt with
            | some m =>
                obtain ⟨mn, mps, mch⟩ := m
                simp [chunkStep, isMacroDeclL, macroDeclNameL, he, hdecl, hm, mNameOf]
            | none =>
                simp [chunkStep, isMacroDeclL, macroDeclNameL, he, hdecl, hm, mNameOf]
        | modelC a b p =>
            cases hm : st.macroOpt with
            | some m =>
                obtain ⟨mn, mps, mch⟩ := m
                simp [chunkStep, isMacroDeclL, macroDeclNameL, he, hdecl, hm, mNameOf]
            | none =>
                simp [chunkStep, isMacroDeclL, macroDeclNameL, he, hdecl, hm, mNameOf]
    | none =>
        cases hinc : lp.parse_include l with
        | some d =>
            simp [chunkStep, isMacroDeclL, macroDeclNameL, he, hdecl, hinc, mNameOf]
        | none =>
            cases hins : lp.parse_instance l with
            | some i =>
                cases hm : st.macroOpt with
                | some m =>
                    obtain ⟨mn, mps, mch⟩ := m
                    simp [chunkStep, isMacroDeclL, macroDeclNameL, he, hdecl, hinc, hins, hm,
                      mNameOf]
                | none =>
                    simp [chunkStep, isMacroDeclL, macroDeclNameL, he, hdecl, hinc, hins, hm,
                      mNameOf]
            | none =>
                simp [chunkStep, isMacroDeclL, macroDeclNameL, he, hdecl, hinc, hins, mNameOf]

theorem chunkFold_lastMacro (lp : LineParserM) :
    ∀ (lines : List String) (st : ChunkSt),
      mNameOf ((lines.foldl (chunkStep lp) st).macroOpt)
        = match lastMacroName lp lines with
          | some n => some n
          | none => mNameOf st.macroOpt := by
  intro lines
  induction lines with
  | nil => intro st; simp [lastMacroName]
  | cons l rest ih =>
      intro st
      rw [List.foldl_cons, ih]
      have hsplit : lastMacroName lp (l :: rest)
          = match lastMacroName lp rest with
            | some n => some n
            | none => if isMacroDeclL lp l then macroDeclNameL lp l else none := by
        unfold lastMacroName
        rw [List.reverse_cons, List.find?_append]
        cases hfind : rest.reverse.find? (isMacroDeclL lp) with
        | some x =>
            obtain ⟨n1, hn1⟩ := isMacroDeclL_name lp x (List.find?_some hfind)
            simp [Option.orElse, hn1]
        | none =>
            cases hl : isMacroDeclL lp l with
            | true => simp [Option.orElse, List.find?, hl]
            | false => simp [Option.orElse, List.find?, hl, lastMacroName]
      rw [hsplit, chunkStep_mNameOf]
      cases hrest : lastMacroName lp rest with
      | some n => simp
      | none =>
          cases hl : isMacroDeclL lp l with
          | true =>
              obtain ⟨n, hn⟩ := isMacroDeclL_name lp l hl
              simp [hn]
          | false => simp

/-- C10: whenever some logical line of the region declares a macro,
`ChunkParser.parse` returns exactly one cell — the most recently
declared macro — and every cell accumulated from other lines of the
region is absent from the result. -/
theorem c10_single_macro_per_region (lp : LineParserM) (lines : List String) (n : String)
    (h : lastMacroName lp lines = some n) :
    ∃ ps ch, (chunkParse lp lines).cells = [.macroC n ps ch] := by
  have hm := chunkFold_lastMacro lp lines ⟨[], none, []⟩
  rw [h] at hm
  unfold chunkParse chunkFinish
  cases hopt : (lines.foldl (chunkStep lp) ⟨[], none, []⟩).macroOpt with
  | none => rw [hopt] at hm; simp [mNameOf] at hm
  | some x =>
      obtain ⟨n0, ps, ch⟩ := x
      rw [hopt] at hm
      simp [mNameOf] at hm
      subst hm
      exact ⟨ps, ch, rfl⟩

/-- Witness for C10 at a concrete region: a global instance line, then
a macro declaration, then a child instance. -/
theorem c10_witness :
    lastMacroName (spiceLineParser "f.sp")
        ["R1 a b 1", ".subckt foo a", "X1 a sub2"] = some "foo"
    ∧ ∃ ps ch,
        (chunkParse (spiceLineParser "f.sp")
          ["R1 a b 1", ".subckt foo a", "X1 a sub2"]).cells = [.macroC "foo" ps ch] :=
  ⟨rfl, c10_single_macro_per_region _ _ _ rfl⟩

/-! ## C6: the scanner's regions tile the file -/

/-- The regions form a gapless chain of half-open intervals from `s` to
`e`: each region starts where the previous one ended. -/
def RegChain : Nat → List Region → Nat → Prop
  | s, [], e => s = e
  | s, r :: rs, e =>
      ∃ m : Nat, r.startB = s ∧ r.endB = (m : Int) ∧ s ≤ m ∧ RegChain m rs e

theorem regChain_append {s e : Nat} {rs : List Region} (p : Nat) (r : Region)
    (h : RegChain s rs e) (h1 : r.startB = e) (h2 : r.endB = (p : Int)) (h3 : e ≤ p) :
    RegChain s (rs ++ [r]) p := by
  induction rs generalizing s with
  | nil =>
      have hs : s = e := h
      subst hs
      exact ⟨p, h1, h2, h3, rfl⟩
  | cons hd tl ih =>
      obtain ⟨m, ha, hb, hc, hchain⟩ := h
      exact ⟨m, ha, hb, hc, ih hchain⟩

theorem regChain_le {s e : Nat} {rs : List Region} (h : RegChain s rs e) : s ≤ e := by
  induction rs generalizing s with
  | nil => exact le_of_eq h
  | cons hd tl ih =>
      obtain ⟨m, _, _, hc, hchain⟩ := h
      exact le_trans hc (ih hchain)

theorem regChain_start_ge {s e : Nat} {rs : List Region} (h : RegChain s rs e) :
    ∀ r ∈ rs, s ≤ r.startB := by
  induction rs generalizing s with
  | nil => intro r hr; cases hr
  | cons hd tl ih =>
      obtain ⟨m, ha, hb, hc, hchain⟩ := h
      intro r hr
      rcases List.mem_cons.mp hr with rfl | hr
      · exact le_of_eq ha.symm
      · exact le_trans hc (ih hchain r hr)

theorem regChain_end_le {s e : Nat} {rs : List Region} (h : RegChain s rs e) :
    ∀ r ∈ rs, r.endB ≤ (e : Int) := by
  induction rs generalizing s with
  | nil => intro r hr; cases hr
  | cons hd tl ih =>
      obtain ⟨m, ha, hb, hc, hchain⟩ := h
      intro r hr
      rcases List.mem_cons.mp hr with rfl | hr
      · rw [hb]
        exact_mod_cast regChain_le hchain
      · exact ih hchain r hr

theorem regChain_pairwise {s e : Nat} {rs : List Region} (h : RegChain s rs e) :
    rs.Pairwise (fun a b => a.endB ≤ (b.startB : Int)) := by
  induction rs generalizing s with
  | nil => exact List.Pairwise.nil
  | cons hd tl ih =>
      obtain ⟨m, ha, hb, hc, hchain⟩ := h
      refine List.Pairwise.cons ?_ (ih hchain)
      intro b hb2
      rw [hb]
      exact_mod_cast regChain_start_ge hchain b hb2

theorem regChain_cover {s e : Nat} {rs : List Region} (h : RegChain s rs e) :
    ∀ b : Nat, s ≤ b → b < e → ∃ r ∈ rs, r.startB ≤ b ∧ (b : Int) < r.endB := by
  induction rs generalizing s with
  | nil =>
      intro b hsb hbe
      have hs : s = e := h
      omega
  | cons hd tl ih =>
      obtain ⟨m, ha, hb, hc, hchain⟩ := h
      intro b hsb hbe
      by_cases hbm : b < m
      · refine ⟨hd, List.mem_cons_self _ _, ?_, ?_⟩
        · rw [ha]; exact hsb
        · rw [hb]; exact_mod_cast hbm
      · obtain ⟨r, hr, h1, h2⟩ := ih hchain b (le_of_not_lt hbm) hbe
        exact ⟨r, List.mem_cons_of_mem _ hr, h1, h2⟩

theorem scanLine_inv (strat : ScanStrat) (fp : String) (ctx : SCtx) (l : String) (pos : Nat)
    (h1 : RegChain 0 ctx.regions ctx.currentStart) (h2 : ctx.currentStart ≤ pos) :
    RegChain 0 (scanLine strat fp ctx l pos (pos + l.length)).regions
        (scanLine strat fp ctx l pos (pos + l.length)).currentStart
    ∧ (scanLine strat fp ctx l pos (pos + l.length)).currentStart ≤ pos + l.length := by
  have hpos : ctx.currentStart ≤ pos + l.length := le_trans h2 (Nat.le_add_right _ _)
  unfold scanLine
  by_cases him : ctx.inMacro
  · simp only [him, if_true]
    unfold handleMacroLine
    by_cases hs : (strat.matchesMacroStart l).isSome
    · simpa [hs] using ⟨h1, hpos⟩
    · simp only [hs, Bool.false_eq_true, if_false]
      by_cases hend : strat.matchesMacroEnd l
      · simp only [hend, if_true]
        by_cases hd : ctx.depth - 1 = 0
        · simp only [hd, if_true]
          exact ⟨regChain_append _ _ h1 rfl rfl hpos, le_refl _⟩
        · simpa [hd] using ⟨h1, hpos⟩
      · simpa [hend] using ⟨h1, hpos⟩
  · simp only [him, if_false, Bool.false_eq_true]
    unfold handleGlobalLine
    cases hms : strat.matchesMacroStart l with
    | none => simpa using ⟨h1, hpos⟩
    | some dm =>
        obtain ⟨delim, nm⟩ := dm
        by_cases hgt : pos > ctx.currentStart
        · simp only [hgt, if_true]
          exact ⟨regChain_append _ _ h1 rfl rfl (le_of_lt hgt), Nat.le_add_right _ _⟩
        · simp only [hgt, if_false]
          have heq : ctx.currentStart = pos := le_antisymm h2 (le_of_not_lt hgt)
          exact ⟨heq ▸ h1, Nat.le_add_right _ _⟩

theorem scanGo_inv (strat : ScanStrat) (fp : String) :
    ∀ (lines : List String) (ctx : SCtx) (pos : Nat),
      RegChain 0 ctx.regions ctx.currentStart → ctx.currentStart ≤ pos →
      RegChain 0 (scanGo strat fp ctx pos lines).1.regions
          (scanGo strat fp ctx pos lines).1.currentStart
      ∧ (scanGo strat fp ctx pos lines).1.currentStart ≤ (scanGo strat fp ctx pos lines).2
  | [], ctx, pos, hc, hp => by
      simpa [scanGo] using ⟨hc, hp⟩
  | l :: rest, ctx, pos, hc, hp => by
      have h := scanLine_inv strat fp ctx l pos hc hp
      simpa [scanGo] using scanGo_inv strat fp rest _ _ h.1 h.2

theorem scanGo_snd (strat : ScanStrat) (fp : String) :
    ∀ (lines : List String) (ctx : SCtx) (pos : Nat),
      (scanGo strat fp ctx pos lines).2 = pos + totalLen lines
  | [], ctx, pos => by simp [scanGo, totalLen]
  | l :: rest, ctx, pos => by
      rw [scanGo, scanGo_snd strat fp rest _ _]
      simp [totalLen]
      omega

theorem scanRegions_chain (strat : ScanStrat) (fp : String) (lines : List String) :
    RegChain 0 (scanRegions strat fp lines) (totalLen lines) := by
  have h := scanGo_inv strat fp lines initSCtx 0 rfl (le_refl 0)
  have hsnd := scanGo_snd strat fp lines initSCtx 0
  rw [Nat.zero_add] at hsnd
  unfold scanRegions finalizeScan
  by_cases hgt :
      (scanGo strat fp initSCtx 0 lines).2 > (scanGo strat fp initSCtx 0 lines).1.currentStart
  · simp only [hgt, if_true]
    rw [← hsnd]
    exact regChain_append _ _ h.1 rfl rfl (le_of_lt hgt)
  · simp only [hgt, if_false]
    have heq : (scanGo strat fp initSCtx 0 lines).1.currentStart
        = (scanGo strat fp initSCtx 0 lines).2 := le_antisymm h.2 (le_of_not_lt hgt)
    rw [← hsnd, ← heq]
    exact h.1

/-- C6: the scanner's regions are pairwise non-overlapping, appear in
increasing byte order (each region ends at or before the next begins),
stay within the file, and together cover every byte from 0 to EOF. -/
theorem c6_regions_tile_file (strat : ScanStrat) (fp : String) (lines : List String) :
    (scanRegions strat fp lines).Pairwise (fun a b => a.endB ≤ (b.startB : Int))
    ∧ (∀ r ∈ scanRegions strat fp lines, r.endB ≤ (totalLen lines : Int))
    ∧ (∀ b : Nat, b < totalLen lines →
        ∃ r ∈ scanRegions strat fp lines, r.startB ≤ b ∧ (b : Int) < r.endB) := by
  have hchain := scanRegions_chain strat fp lines
  exact ⟨regChain_pairwise hchain, regChain_end_le hchain,
    fun b hb => regChain_cover hchain b (Nat.zero_le b) hb⟩

/-- Witness for C6 on a concrete SPICE file with a macro region and a
trailing global region: byte 0 is covered by some region. -/
theorem c6_witness :
    ∃ r ∈ scanRegions spiceStrat "w.sp" [".subckt a x\n", ".ends\n", "R1 a b 1\n"],
      r.startB ≤ 0 ∧ ((0 : Nat) : Int) < r.endB :=
  (c6_regions_tile_file spiceStrat "w.sp" [".subckt a x\n", ".ends\n", "R1 a b 1\n"]).2.2
    0 (by decide)

/-! ## C2: macros are emitted in topological order -/

/-- Macro `a` depends on macro `b`: some child instance of `a` has a
macro named like `b` as its resolved definition (the edge relation of
`_build_dependency_graph`). -/
def dependsOnB (a b : RMacro) : Bool :=
  a.children.any
    (fun c =>
      match c.definition with
      | some (.macroRef nb _) => decide (nb = b.name)
      | _ => false)

theorem dependsOnB_elim {a b : RMacro} (h : dependsOnB a b = true) :
    ∃ c ∈ a.children, ∃ ps, c.definition = some (.macroRef b.name ps) := by
  unfold dependsOnB at h
  rw [List.any_eq_true] at h
  obtain ⟨c, hc, hp⟩ := h
  refine ⟨c, hc, ?_⟩
  cases hd : c.definition with
  | none => rw [hd] at hp; simp at hp
  | some d =>
      cases d with
      | prim k => rw [hd] at hp; simp at hp
      | macroRef nb ps =>
          rw [hd] at hp
          simp only [decide_eq_true_eq] at hp
          subst hp
          exact ⟨ps, rfl⟩

theorem pyLookup_some_mem {α β : Type} [DecidableEq α] {d : List (α × β)} {k : α} {v : β}
    (h : pyLookup d k = some v) : (k, v) ∈ d := by
  induction d with
  | nil => simp [pyLookup] at h
  | cons hd tl ih =>
      obtain ⟨k0, v0⟩ := hd
      by_cases hk : k0 = k
      · subst hk
        simp [pyLookup] at h
        simp [h]
      · simp [pyLookup, hk] at h
        exact List.mem_cons_of_mem _ (ih h)

theorem pyLookup_eq_none_iff {α β : Type} [DecidableEq α] {d : List (α × β)} {k : α} :
    pyLookup d k = none ↔ k ∉ d.map Prod.fst := by
  induction d with
  | nil => simp [pyLookup]
  | cons hd tl ih =>
      obtain ⟨k0, v0⟩ := hd
      by_cases hk : k0 = k
      · subst hk
        simp [pyLookup]
      · simp [pyLookup, hk, ih, Ne.symm hk]

/-- Every entry of the resolved macro table is keyed by its macro's
name. -/
theorem buildResolvedTable_name (rcells : List RCell) :
    ∀ km ∈ buildResolvedTable rcells, (km.2 : RMacro).name = km.1 := by
  suffices h : ∀ (acc : List (String × RMacro)),
      (∀ km ∈ acc, (km.2 : RMacro).name = km.1) →
      ∀ km ∈ rcells.foldl
        (fun t c =>
          match c with
          | .macroR m => if (pyLookup t m.name).isSome then t else t ++ [(m.name, m)]
          | _ => t) acc, (km.2 : RMacro).name = km.1 by
    exact h [] (by simp)
  induction rcells with
  | nil => intro acc hacc; simpa using hacc
  | cons c rest ih =>
      intro acc hacc
      simp only [List.foldl_cons]
      apply ih
      cases c with
      | macroR m =>
          by_cases hl : (pyLookup acc m.name).isSome
          · simpa [hl] using hacc
          · simp only [hl, if_false, Bool.false_eq_true]
            intro km hkm
            rcases List.mem_append.mp hkm with hkm | hkm
            · exact hacc km hkm
            · simp at hkm
              simp [hkm]
      | instR i => simpa using hacc
      | modelR n b p => simpa using hacc

/-- The resolved macro table has pairwise-distinct keys (first
definition wins). -/
theorem buildResolvedTable_nodup (rcells : List RCell) :
    ((buildResolvedTable rcells).map Prod.fst).Nodup := by
  suffices h : ∀ (acc : List (String × RMacro)),
      (acc.map Prod.fst).Nodup →
      ((rcells.foldl
        (fun t c =>
          match c with
          | .macroR m => if (pyLookup t m.name).isSome then t else t ++ [(m.name, m)]
          | _ => t) acc).map Prod.fst).Nodup by
    exact h [] (by simp)
  induction rcells with
  | nil => intro acc hacc; simpa using hacc
  | cons c rest ih =>
      intro acc hacc
      simp only [List.foldl_cons]
      apply ih
      cases c with
      | macroR m =>
          cases hl : pyLookup acc m.name with
          | some v => simpa [hl] using hacc
          | none =>
              simp only [hl, Option.isSome_none, Bool.false_eq_true, if_false]
              have hnot := pyLookup_eq_none_iff.mp hl
              simp [List.nodup_append, hacc, hnot]
      | instR i => simpa using hacc
      | modelR n b p => simpa using hacc

theorem mem_buildEdges {table : List (String × RMacro)} {k : String} {m : RMacro}
    (hkm : (k, m) ∈ table) {c : Inst} (hc : c ∈ m.children) {nb : String} {ps : List Port}
    (hd : c.definition = some (.macroRef nb ps)) : (k, nb) ∈ buildEdges table := by
  have hdep : (k, nb) ∈ depEdgesOfMacro k m := by
    unfold depEdgesOfMacro
    rw [List.mem_filterMap]
    exact ⟨c, hc, by rw [hd]⟩
  suffices h : ∀ (acc : List (String × String)),
      ((k, nb) ∈ acc ∨ (k, m) ∈ table) →
      (k, nb) ∈ table.foldl (fun es km => es ++ depEdgesOfMacro km.1 km.2) acc by
    exact h [] (Or.inr hkm)
  clear hkm
  induction table with
  | nil =>
      intro acc hor
      rcases hor with hin | hin
      · simpa using hin
      · cases hin
  | cons t rest ih =>
      intro acc hor
      simp only [List.foldl_cons]
      apply ih
      rcases hor with hin | hin
      · exact Or.inl (List.mem_append.mpr (Or.inl hin))
      · rcases List.mem_cons.mp hin with heq | hin
        · left
          rw [← heq]
          exact List.mem_append.mpr (Or.inr hdep)
        · exact Or.inr hin

theorem mem_addNode_self (ns : List String) (n : String) : n ∈ addNode ns n := by
  unfold addNode
  by_cases h : n ∈ ns <;> simp [h]

theorem mem_addNode_of_mem {ns : List String} {x : String} (n : String) (h : x ∈ ns) :
    x ∈ addNode ns n := by
  unfold addNode
  by_cases hn : n ∈ ns <;> simp [hn, h]

theorem addNode_nodup {ns : List String} (n : String) (h : ns.Nodup) :
    (addNode ns n).Nodup := by
  unfold addNode
  by_cases hn : n ∈ ns
  · simpa [hn]
  · simp [hn, List.nodup_append, h]

theorem mem_foldl_addNode {x : String} :
    ∀ (es : List (String × String)) (acc : List String), x ∈ acc →
      x ∈ es.foldl (fun ns e2 => addNode (addNode ns e2.1) e2.2) acc
  | [], acc, h => by simpa using h
  | e :: rest, acc, h => by
      simp only [List.foldl_cons]
      exact mem_foldl_addNode rest _ (mem_addNode_of_mem _ (mem_addNode_of_mem _ h))

theorem buildNodes_edge_mem {edges : List (String × String)} :
    ∀ (seed : List String) {e : String × String}, e ∈ edges →
      e.1 ∈ edges.foldl (fun ns e2 => addNode (addNode ns e2.1) e2.2) seed
      ∧ e.2 ∈ edges.foldl (fun ns e2 => addNode (addNode ns e2.1) e2.2) seed := by
  induction edges with
  | nil => intro seed e he; cases he
  | cons e0 rest ih =>
      intro seed e he
      simp only [List.foldl_cons]
      rcases List.mem_cons.mp he with rfl | he
      · exact ⟨mem_foldl_addNode rest _ (mem_addNode_of_mem _ (mem_addNode_self _ _)),
          mem_foldl_addNode rest _ (mem_addNode_self _ _)⟩
      · exact ih _ he

theorem mem_buildNodes_of_edge {table : List (String × RMacro)}
    {e : String × String} (he : e ∈ buildEdges table) :
    e.1 ∈ buildNodes table (buildEdges table) ∧ e.2 ∈ buildNodes table (buildEdges table) :=
  buildNodes_edge_mem _ he

theorem buildNodes_nodup (table : List (String × RMacro)) (edges : List (String × String)) :
    (buildNodes table edges).Nodup := by
  have hseed : ∀ (ks : List (String × RMacro)) (acc : List String), acc.Nodup →
      (ks.foldl (fun ns km => addNode ns km.1) acc).Nodup := by
    intro ks
    induction ks with
    | nil => intro acc h; simpa using h
    | cons k rest ih =>
        intro acc h
        simp only [List.foldl_cons]
        exact ih _ (addNode_nodup _ h)
  have hfold : ∀ (es : List (String × String)) (acc : List String), acc.Nodup →
      (es.foldl (fun ns e2 => addNode (addNode ns e2.1) e2.2) acc).Nodup := by
    intro es
    induction es with
    | nil => intro acc h; simpa using h
    | cons e rest ih =>
        intro acc h
        simp only [List.foldl_cons]
        exact ih _ (addNode_nodup _ (addNode_nodup _ h))
  exact hfold edges _ (hseed table [] (by simp))

theorem pickReady_spec {nodes : List String} {edges : List (String × String)} {n : String}
    (h : pickReady nodes edges = some n) :
    n ∈ nodes ∧ ∀ u v : String, (u, v) ∈ edges → v = n → u ∉ nodes := by
  unfold pickReady at h
  refine ⟨List.mem_of_find?_eq_some h, ?_⟩
  have hpred := List.find?_some h
  rw [Bool.not_eq_true'] at hpred
  unfold hasIncoming at hpred
  rw [List.any_eq_false] at hpred
  intro u v huv hv hu
  have := hpred (u, v) huv
  rw [hv] at this
  simp [hu] at this

theorem kahnAux_mem :
    ∀ (fuel : Nat) (nodes : List String) (edges : List (String × String))
      (order : List String), nodes.length ≤ fuel →
      kahnAux fuel nodes edges = some order →
      ((∀ x, x ∈ order ↔ x ∈ nodes) ∧ (nodes.Nodup → order.Nodup))
  | 0, nodes, edges, order, hf, h => by
      have hnil : nodes = [] := List.length_eq_zero.mp (Nat.le_zero.mp hf)
      subst hnil
      simp [kahnAux] at h
      subst h
      simp
  | fuel + 1, nodes, edges, order, hf, h => by
      rw [kahnAux] at h
      by_cases hne : nodes.isEmpty
      · rw [if_pos hne] at h
        have hnil : nodes = [] := by simpa [List.isEmpty_iff] using hne
        subst hnil
        simp at h
        subst h
        simp
      · rw [if_neg hne] at h
        cases hp : pickReady nodes edges with
        | none =>
            rw [hp] at h
            exact Option.noConfusion h
        | some n =>
            rw [hp] at h
            have h2 : (kahnAux fuel (nodes.erase n) edges).map
                (fun order => n :: order) = some order := h
            cases hrec : kahnAux fuel (nodes.erase n) edges with
            | none =>
                rw [hrec] at h2
                exact Option.noConfusion h2
            | some order2 =>
                rw [hrec] at h2
                injection h2 with h2
                subst h2
                have hn : n ∈ nodes := (pickReady_spec hp).1
                have hlen : (nodes.erase n).length ≤ fuel := by
                  rw [List.length_erase_of_mem hn]
                  omega
                obtain ⟨hmem, hnd⟩ := kahnAux_mem fuel _ edges order2 hlen hrec
                constructor
                · intro x
                  rw [List.mem_cons, hmem x]
                  constructor
                  · rintro (rfl | hx)
                    · exact hn
                    · exact List.mem_of_mem_erase hx
                  · intro hx
                    by_cases hxn : x = n
                    · exact Or.inl hxn
                    · exact Or.inr ((List.mem_erase_of_ne hxn).mpr hx)
                · intro hnodes
                  refine List.Nodup.cons ?_ (hnd (hnodes.erase n))
                  intro hmem2
                  have := (hmem n).mp hmem2
                  exact absurd ((hnodes.mem_erase_iff).mp this).1 (by simp)

theorem kahnAux_order :
    ∀ (fuel : Nat) (nodes : List String) (edges : List (String × String))
      (order : List String), nodes.length ≤ fuel → nodes.Nodup →
      kahnAux fuel nodes edges = some order →
      ∀ u v : String, (u, v) ∈ edges → u ∈ nodes → v ∈ nodes →
        order.indexOf u < order.indexOf v
  | 0, nodes, edges, order, hf, hnd, h => by
      have hnil : nodes = [] := List.length_eq_zero.mp (Nat.le_zero.mp hf)
      subst hnil
      intro u v huv hu hv
      cases hu
  | fuel + 1, nodes, edges, order, hf, hnd, h => by
      intro u v huv hu hv
      rw [kahnAux] at h
      by_cases hne : nodes.isEmpty
      · have hnil : nodes = [] := by simpa [List.isEmpty_iff] using hne
        subst hnil
        cases hu
      · rw [if_neg hne] at h
        cases hp : pickReady nodes edges with
        | none =>
            rw [hp] at h
            exact Option.noConfusion h
        | some n =>
            rw [hp] at h
            have h2 : (kahnAux fuel (nodes.erase n) edges).map
                (fun order => n :: order) = some order := h
            cases hrec : kahnAux fuel (nodes.erase n) edges with
            | none =>
                rw [hrec] at h2
                exact Option.noConfusion h2
            | some order2 =>
                rw [hrec] at h2
                injection h2 with h2
                subst h2
                obtain ⟨hn, hready⟩ := pickReady_spec hp
                have hvn : v ≠ n := by
                  intro hvn
                  exact hready u v huv hvn hu
                have hv2 : v ∈ nodes.erase n := (List.mem_erase_of_ne hvn).mpr hv
                have hlen : (nodes.erase n).length ≤ fuel := by
                  rw [List.length_erase_of_mem hn]
                  omega
                have hmem2 := (kahnAux_mem fuel _ edges order2 hlen hrec).1
                by_cases hun : u = n
                · subst hun
                  rw [List.indexOf_cons_self]
                  rw [List.indexOf_cons_ne _ (Ne.symm hvn)]
                  omega
                · have hu2 : u ∈ nodes.erase n := (List.mem_erase_of_ne hun).mpr hu
                  have ih := kahnAux_order fuel _ edges order2 hlen (hnd.erase n) hrec
                    u v huv hu2 hv2
                  rw [List.indexOf_cons_ne _ (Ne.symm hun),
                    List.indexOf_cons_ne _ (Ne.symm hvn)]
                  omega

theorem lookupAll_spec (table : List (String × RMacro)) :
    ∀ (names : List String) (ms : List RMacro), lookupAll table names = some ms →
      ms.length = names.length
      ∧ ∀ idx (h1 : idx < names.length) (h2 : idx < ms.length),
          pyLookup table names[idx] = some ms[idx]
  | [], ms, h => by
      simp [lookupAll] at h
      subst h
      simp
  | n :: rest, ms, h => by
      rw [lookupAll] at h
      cases hl : pyLookup table n with
      | none =>
          rw [hl] at h
          exact Option.noConfusion h
      | some m =>
          rw [hl] at h
          have h2 : (lookupAll table rest).map (fun ms2 => m :: ms2) = some ms := h
          cases hrec : lookupAll table rest with
          | none =>
                rw [hrec] at h2
                exact Option.noConfusion h2
          | some ms2 =>
              rw [hrec] at h2
              injection h2 with h2
              subst h2
              obtain ⟨hlen, hidx⟩ := lookupAll_spec table rest ms2 hrec
              refine ⟨by simp [hlen], ?_⟩
              intro idx h1 h2
              cases idx with
              | zero => simpa using hl
              | succ k =>
                  simp only [List.getElem_cons_succ]
                  exact hidx k (by simpa using h1) (by simpa using h2)

theorem topoSort_ok {table : List (String × RMacro)} {sorted : List RMacro}
    {errs : List LinkError} (h : topologicalSortL table = .ok (sorted, errs)) :
    ∃ names,
      kahnSort (buildNodes table (buildEdges table)) (buildEdges table) = some names
      ∧ lookupAll table names = some sorted := by
  unfold topologicalSortL at h
  cases hk : kahnSort (buildNodes table (buildEdges table)) (buildEdges table) with
  | none =>
      rw [hk] at h
      exact absurd h (by simp [nxIsInstanceOf, nxAncestors])
  | some names =>
      rw [hk] at h
      have h2 : (match lookupAll table names with
          | some ms => (Except.ok (ms, []) : Except PyExc (List RMacro × List LinkError))
          | none => .error .keyError) = .ok (sorted, errs) := h
      cases hl : lookupAll table names with
      | none => rw [hl] at h2; exact absurd h2 (by simp)
      | some ms =>
          rw [hl] at h2
          simp only [Except.ok.injEq, Prod.mk.injEq] at h2
          exact ⟨names, rfl, by rw [hl, h2.1]⟩

/-- C2: in a successfully linked netlist (in particular the macro
dependency graph was acyclic), every macro-to-macro dependency edge
`A → B` puts `A` strictly before `B` in `netlist.macros`. -/
theorem c2_macros_topologically_sorted (nm : String) (cells : List PCell)
    (reg : ModelRegistry) (out : LinkOut) (h : link nm cells reg = .ok out)
    (i j : Nat) (hi : i < out.netlist.macros.length) (hj : j < out.netlist.macros.length)
    (hdep : dependsOnB out.netlist.macros[i] out.netlist.macros[j] = true) : i < j := by
  unfold link at h
  split at h
  · exact absurd h (by simp)
  · rename_i rcells instances0 resErrs rg hres
    generalize htab : buildResolvedTable (rcells.map attachRCell) = table at h
    split at h
    · exact absurd h (by simp)
    · rename_i sortedMacros cycleErrs htopo
      injection h with h
      subst h
      simp only at hi hj hdep
      have hname := buildResolvedTable_name (rcells.map attachRCell)
      rw [htab] at hname
      have hkeys := buildResolvedTable_nodup (rcells.map attachRCell)
      rw [htab] at hkeys
      obtain ⟨names, hkahn, hlook⟩ := topoSort_ok htopo
      obtain ⟨hlen, hidx⟩ := lookupAll_spec table names sortedMacros hlook
      have hi2 : i < names.length := by omega
      have hj2 : j < names.length := by omega
      have hli := hidx i hi2 hi
      have hlj := hidx j hj2 hj
      have hmi := pyLookup_some_mem hli
      have hmj := pyLookup_some_mem hlj
      have hni : sortedMacros[i].name = names[i] := hname _ hmi
      have hnj : sortedMacros[j].name = names[j] := hname _ hmj
      obtain ⟨c, hc, ps, hcd⟩ := dependsOnB_elim hdep
      rw [hnj] at hcd
      have hedge : (names[i], names[j]) ∈ buildEdges table :=
        mem_buildEdges hmi hc hcd
      have hnodememi := (mem_buildNodes_of_edge hedge).1
      have hnodememj := (mem_buildNodes_of_edge hedge).2
      have hnodesnd := buildNodes_nodup table (buildEdges table)
      have horder := kahnAux_order _ _ _ names (le_refl _) hnodesnd hkahn
        names[i] names[j] hedge hnodememi hnodememj
      have hnamesnd : names.Nodup :=
        (kahnAux_mem _ _ _ names (le_refl _) hkahn).2 hnodesnd
      rw [List.indexOf_getElem hnamesnd i hi2, List.indexOf_getElem hnamesnd j hj2] at horder
      exact horder

def c2exCells : List PCell :=
  [.macroC "A" [] [.instC { name := "X1", definition_name := some "B" }],
   .macroC "B" [] []]

def c2exInstance : Inst :=
  { name := "X1", nets := [], params := [],
    definition := some (.macroRef "B" []), definition_name := some "B", parent := none }

/-- The link result for `c2exCells`: A resolved to depend on B, sorted
A before B. -/
def c2exOut : LinkOut :=
  { netlist :=
      { name := "w", primitives := [],
        macros :=
          [{ name := "A", ports := [], children := [c2exInstance] },
           { name := "B", ports := [], children := [] }],
        topInstances := [c2exInstance] },
    errors := [],
    top_instances := [c2exInstance] }

/-- Witness for C2: a two-macro netlist where A instantiates B links
successfully, the dependency edge A → B holds between positions 0 and
1 of the output macros, and the theorem applies. -/
theorem c2_witness :
    link "w" c2exCells {} = .ok c2exOut ∧ (0 : Nat) < 1 :=
  ⟨rfl, c2_macros_topologically_sorted "w" c2exCells {} c2exOut rfl
      0 1 (by decide) (by decide) (by decide)⟩

/-! ## Remaining witnesses -/

/-- Witness for C4 at concrete inputs: the MOSFET line resolves through
the prefix table, and a `Q`-prefixed line is not an instance. -/
theorem c4_witness :
    (∃ tok rest, pySplitWs (eqNormStr "M1 d g s b mymod") = tok :: rest
      ∧ (((headCharD tok).toUpper = 'R'
            ∧ (parseInstanceCore "M1" ["d", "g", "s", "b", "mymod"] (.primC .pmos)).definition
                = some (.prim .resistor))
         ∨ ((headCharD tok).toUpper = 'C'
            ∧ (parseInstanceCore "M1" ["d", "g", "s", "b", "mymod"] (.primC .pmos)).definition
                = some (.prim .capacitor))
         ∨ ((headCharD tok).toUpper = 'L'
            ∧ (parseInstanceCore "M1" ["d", "g", "s", "b", "mymod"] (.primC .pmos)).definition
                = some (.prim .inductor))
         ∨ ((headCharD tok).toUpper = 'M'
            ∧ (parseInstanceCore "M1" ["d", "g", "s", "b", "mymod"] (.primC .pmos)).definition
                = some (.prim .pmos))
         ∨ ((headCharD tok).toUpper = 'D'
            ∧ (parseInstanceCore "M1" ["d", "g", "s", "b", "mymod"] (.primC .pmos)).definition
                = some (.prim .diode))
         ∨ ((headCharD tok).toUpper = 'X'
            ∧ (parseInstanceCore "M1" ["d", "g", "s", "b", "mymod"] (.primC .pmos)).definition
                = none)))
    ∧ parse_instance "Q1 a b c" = none :=
  ⟨c4_amended_prefix_table.1 "M1 d g s b mymod"
      (parseInstanceCore "M1" ["d", "g", "s", "b", "mymod"] (.primC .pmos)) rfl,
   c4_amended_prefix_table.2 "Q1 a b c" "Q1" ["a", "b", "c"] rfl (by decide)⟩

def c5exInst : Inst :=
  { name := "R1", nets := [("a", none)], definition := some (.prim .resistor) }

/-- Witness for C5 at a concrete instance with one declared net and a
two-port definition, plus a concretely linked netlist. -/
theorem c5_witness :
    ((attachNets c5exInst).definition = some (.prim .resistor)
      ∧ (attachNets c5exInst).nets.length
          = min c5exInst.nets.length (Defn.prim .resistor).ports.length
      ∧ (attachNets c5exInst).nets.map Prod.fst
          = (c5exInst.nets.map Prod.fst).take (Defn.prim .resistor).ports.length
      ∧ (attachNets c5exInst).nets.map Prod.snd
          = ((Defn.prim .resistor).ports.take c5exInst.nets.length).map Option.some)
    ∧ (∃ i0, c2exInstance = attachNets i0) :=
  ⟨c5_amended_nets_zip_truncates.1 c5exInst (.prim .resistor) rfl,
   c5_amended_nets_zip_truncates.2 "w" c2exCells {} c2exOut rfl c2exInstance (by decide)⟩

/-- Witness for C7 at a concrete whole-file region whose first line is
a comment. -/
theorem c7_witness :
    logicalLines0 ["$note", "R1 a b 1"] =
      (if strIsEmpty (pyStrip "$note") then []
       else if isCommentS (pyStrip "$note") then plainLogicalLines ["R1 a b 1"]
       else if headCharD (pyStrip "$note") = '.' then
         plainLogicalLines ["$note", "R1 a b 1"]
       else plainLogicalLines ["R1 a b 1"]) :=
  c7_amended_title_only_first_line "$note" ["R1 a b 1"]

def c9exReg : ModelRegistry :=
  { static_primitives := [("resistor", .resistor)] }

/-- Witness for C9 at a concrete registry and name. -/
theorem c9_witness :
    (resolve_model (resolve_model c9exReg "Resistor").2 "Resistor").1
      = (resolve_model c9exReg "Resistor").1 :=
  c9_resolve_model_idempotent c9exReg "Resistor"

end NetlistIO
